import Mathlib

/-!
Verification development for the document search backend
(`backend/app.py`).  Text is modelled as `List Char` (Python strings are
sequences of code points).  External collaborators (the embedding model,
the summarization model, file extraction) are modelled as oracle
functions passed in as parameters; everything else is translated
directly from the source.
-/

/-- Python strings are sequences of code points; we model them as lists
of characters. -/
abbrev Str := List Char

/-- The whitespace predicate of Python `str.strip()` / `str.split()`
(ASCII part, which is what the pipeline exercises). -/
def pyIsSpace (c : Char) : Bool :=
  c == ' ' || c == '\t' || c == '\n' || c == '\x0d' || c == '\x0b' || c == '\x0c'

/-- Python `str.strip()`: drop leading and trailing whitespace. -/
def pyStrip (s : Str) : Str :=
  ((s.dropWhile pyIsSpace).reverse.dropWhile pyIsSpace).reverse

/-- Split a list at every character satisfying `p`, keeping empty
pieces: the semantics of Python `str.split(sep)` for a one-character
separator (and the character-level refinement of `str.split()`). -/
def splitOnP (p : Char → Bool) : Str → List Str
  | [] => [[]]
  | c :: cs =>
    if p c then
      [] :: splitOnP p cs
    else
      match splitOnP p cs with
      | [] => [[c]]
      | w :: ws => (c :: w) :: ws

/-- Python `text.split()` (no argument): the maximal whitespace-free
runs of `text`, i.e. split at each whitespace character and drop the
empty pieces. -/
def wordsOf (s : Str) : List Str :=
  (splitOnP pyIsSpace s).filter (fun w => !w.isEmpty)

/-- `[s.strip() for s in text.split('.') if s.strip()]`
(line 175 of `backend/app.py`). -/
def sentencesOf (s : Str) : List Str :=
  ((splitOnP (fun c => c == '.') s).map pyStrip).filter (fun w => !w.isEmpty)

/-- Python `sep.join(pieces)`. -/
def joinSep (sep : Str) : List Str → Str
  | [] => []
  | [w] => w
  | w :: x :: ws => w ++ sep ++ joinSep sep (x :: ws)

/-- Fuel-bounded worker for `chunkList`: each step consumes at least one
list element, so any fuel at least the list length yields the full
chunking. -/
def chunkListF (k : Nat) : Nat → List α → List (List α)
  | _, [] => []
  | 0, _ :: _ => []
  | fuel + 1, w :: ws =>
    ((w :: ws).take (k + 1)) :: chunkListF k fuel ((w :: ws).drop (k + 1))

/-- `[words[i:i+m] for i in range(0, len(words), m)]` for positive step
`m` (the source always uses `m = 1024`; a zero step raises in Python and
is mapped to the empty list here). -/
def chunkList (m : Nat) (ws : List α) : List (List α) :=
  match m with
  | 0 => []
  | k + 1 => chunkListF k ws.length ws

theorem chunkListF_congr (k : Nat) :
    ∀ (f1 f2 : Nat) (ws : List α), ws.length ≤ f1 → ws.length ≤ f2 →
      chunkListF k f1 ws = chunkListF k f2 ws := by
  intro f1
  induction f1 with
  | zero =>
    intro f2 ws h1 _
    have hws : ws = [] := List.length_eq_zero.mp (Nat.le_zero.mp h1)
    subst hws
    cases f2 <;> rfl
  | succ f1 ih =>
    intro f2 ws h1 h2
    cases ws with
    | nil => cases f2 <;> rfl
    | cons w ws0 =>
      cases f2 with
      | zero => simp at h2
      | succ f2 =>
        simp only [chunkListF]
        congr 1
        apply ih
        · rw [List.length_drop]
          simp only [List.length_cons] at h1 ⊢
          omega
        · rw [List.length_drop]
          simp only [List.length_cons] at h2 ⊢
          omega

theorem chunkList_cons (k : Nat) (w : α) (ws : List α) :
    chunkList (k + 1) (w :: ws) =
      ((w :: ws).take (k + 1)) :: chunkList (k + 1) ((w :: ws).drop (k + 1)) := by
  show chunkListF k (ws.length + 1) (w :: ws) = _
  rw [chunkListF]
  congr 1
  show chunkListF k ws.length _ = chunkListF k ((w :: ws).drop (k + 1)).length _
  apply chunkListF_congr
  · rw [List.length_drop]
    simp only [List.length_cons]
    omega
  · exact le_refl _

/-- `chunks = [' '.join(words[i:i+max]) for i in range(0, len(words), max)]`
(lines 82-83 of `backend/app.py`), parametrised by the chunk size. -/
def chunkByWords (text : Str) (m : Nat) : List Str :=
  (chunkList m (wordsOf text)).map (joinSep [' '])

/-- The `for chunk in chunks` loop of `summarize_text` (lines 85-88):
each chunk is sent to the external summarizer; the first failure aborts
the loop (the exception propagates to the surrounding `try`). -/
def runSummarizer (summ : Str → Except Unit Str) : List Str → Except Unit (List Str)
  | [] => .ok []
  | c :: cs =>
    match summ c with
    | .error e => .error e
    | .ok s =>
      match runSummarizer summ cs with
      | .error e => .error e
      | .ok ss => .ok (s :: ss)

/-- `summarize_text` (lines 74-94 of `backend/app.py`), with the
external summarization model as an oracle.  On any summarizer failure
the whole step falls back to `text[:500]`. -/
def summarize_text (summ : Str → Except Unit Str) (text : Str) : Str :=
  if (pyStrip text).isEmpty then
    []
  else
    match runSummarizer summ (chunkByWords text 1024) with
    | .ok summaries => joinSep [' '] summaries
    | .error _ => text.take 500

/-- A stored document record (the dict built in `process_document`,
lines 106-111).  `V` is the abstract type of embedding vectors. -/
structure DocRecord (V : Type) where
  filename : Str
  full_text : Str
  summary : Str
  embeddings : V
deriving DecidableEq

/-- `process_document` (lines 96-114): reject empty extracted text,
summarize, embed; an embedding failure yields `none` (no record). -/
def process_document (embed : Str → Option V) (summ : Str → Except Unit Str)
    (full_text : Str) (filename : Str) : Option (DocRecord V) :=
  if full_text.isEmpty then
    none
  else
    let summary := summarize_text summ full_text
    match embed full_text with
    | none => none
    | some v => some ⟨filename, full_text, summary, v⟩

/-- `filename.rsplit('.', 1)[1]`: the part after the last dot. -/
def extOf (filename : Str) : Str :=
  (filename.reverse.takeWhile (fun c => c != '.')).reverse

/-- `allowed_file` (lines 47-49): the name contains a dot and its
lower-cased last extension is `pdf`, `docx` or `pptx`. -/
def allowed_file (filename : Str) : Bool :=
  filename.contains '.' &&
    (let e := (extOf filename).map Char.toLower
     e == "pdf".data || e == "docx".data || e == "pptx".data)

/-- One entry of the `/upload` response (lines 138-149). -/
structure UploadResult where
  id : Option Nat
  filename : Str
  status : Str
  summary : Option Str
deriving DecidableEq

/-- The `/upload` loop (lines 125-151), with file contents abstracted
behind the type `φ` and the extractor as an oracle.  `uuid4` identifiers
are modelled by a fresh-counter; `documents_db` is the insertion-ordered
association list (Python dicts preserve insertion order). -/
def upload_files (fname : φ → Str) (extract : φ → Str) (embed : Str → Option V)
    (summ : Str → Except Unit Str) :
    List φ → List (Nat × DocRecord V) → Nat →
      List (Nat × DocRecord V) × List UploadResult × Nat
  | [], db, next => (db, [], next)
  | f :: fs, db, next =>
    if (fname f).isEmpty then
      upload_files fname extract embed summ fs db next
    else if allowed_file (fname f) then
      match process_document embed summ (extract f) (fname f) with
      | some d =>
        let rest := upload_files fname extract embed summ fs (db ++ [(next, d)]) (next + 1)
        (rest.1, ⟨some next, fname f, "processed".data, some d.summary⟩ :: rest.2.1, rest.2.2)
      | none =>
        let rest := upload_files fname extract embed summ fs db (next + 1)
        (rest.1, ⟨none, fname f, "error".data, none⟩ :: rest.2.1, rest.2.2)
    else
      upload_files fname extract embed summ fs db next

/-- Stable sort by an integer key, largest key first.  This is the exact
semantics of Python `list.sort(key=..., reverse=True)` (line 190), which
CPython guarantees to be stable with `reverse=True` preserving the
original order of equal elements. -/
def sortDesc (key : α → Int) (l : List α) : List α :=
  List.insertionSort (fun a b => key b ≤ key a) l

/-- One deterministic refinement of
`similarities.argsort(descending=True)` (line 179): the indices
`0..n-1` in some descending-score order.  Torch's `argsort` defaults to
`stable=False` and guarantees only a permutation of the indices that is
non-increasing in score — the relative order of equal scores is
unspecified — so theorems must not rely on this refinement's tie order;
tie-order-sensitive statements are made against the contract
`validTopOrder` below instead. -/
def argsortDesc (scores : List Int) (n : Nat) : List Nat :=
  sortDesc (fun i => scores.getD i 0) (List.range n)

/-- The contract line 179 actually guarantees for the index order it
produces: a permutation of `0..n-1` that is non-increasing in score.
Nothing is promised about the relative order of equal scores. -/
def validTopOrder (scores : List Int) (n : Nat) (out : List Nat) : Prop :=
  List.Perm out (List.range n) ∧
    List.Pairwise (fun i j => scores.getD j 0 ≤ scores.getD i 0) out

/-- The placeholder snippet for documents with no sentence units
(line 182). -/
def noContentMsg : Str := "No text content found".data

/-- Lines 175-182: the selected snippet sentences of one document, with
the per-sentence similarity scores supplied as a list.
`top_indices = similarities.argsort(descending=True)[:3]` and
`[sentences[i] for i in top_indices if i < len(sentences)]`. -/
def relevant_sentences (sentences : List Str) (scores : List Int) : List Str :=
  if sentences.isEmpty then
    [noContentMsg]
  else
    (((argsortDesc scores sentences.length).take 3).filter
        (fun i => i < sentences.length)).map (fun i => sentences.getD i [])

/-- Lines 180-182 applied to an arbitrary argsort output `out`: the
relational version of `relevant_sentences`, used to state which
selection properties follow from the argsort contract alone. -/
def relevantSentencesFrom (sentences : List Str) (out : List Nat) : List Str :=
  if sentences.isEmpty then
    [noContentMsg]
  else
    ((out.take 3).filter (fun i => i < sentences.length)).map
      (fun i => sentences.getD i [])

/-- One entry of the `/search` response (lines 184-188). -/
structure SearchResult where
  file : Str
  content : Str
  score : Int
deriving DecidableEq

/-- The result entry built for one stored document (lines 171-188):
document score from the document embedding, snippet from the top-3
sentences, joined with a single space. -/
def resultFor (docScore : DocRecord V → Int) (sentScore : Str → Int)
    (doc : DocRecord V) : SearchResult :=
  let sentences := sentencesOf doc.full_text
  { file := doc.filename
    content := joinSep [' '] (relevant_sentences sentences (sentences.map sentScore))
    score := docScore doc }

/-- The unranked result list, one entry per stored document in
insertion order. -/
def resultsOf (docScore : DocRecord V → Int) (sentScore : Str → Int)
    (db : List (Nat × DocRecord V)) : List SearchResult :=
  db.map (fun p => resultFor docScore sentScore p.2)

/-- `search_documents` (lines 155-195), with the query-dependent cosine
similarities supplied by the oracles `docScore` (document level) and
`sentScore` (sentence level); both stand for
`cos_sim(query_embedding, ·)` for the already-fixed query. -/
def search_documents (query : Str) (db : List (Nat × DocRecord V))
    (docScore : DocRecord V → Int) (sentScore : Str → Int) :
    Except Str (List SearchResult) :=
  if (pyStrip query).isEmpty then
    .error ("Empty query").data
  else if db.isEmpty then
    .error ("No documents processed").data
  else
    .ok ((sortDesc (fun r => r.score) (resultsOf docScore sentScore db)).take 10)

/-! Lemmas about the stable descending sort. -/

theorem sortDesc_perm (key : α → Int) (l : List α) :
    List.Perm (sortDesc key l) l :=
  List.perm_insertionSort _ l

theorem sortDesc_length (key : α → Int) (l : List α) :
    (sortDesc key l).length = l.length :=
  List.length_insertionSort _ l

theorem mem_sortDesc (key : α → Int) (l : List α) (a : α) :
    a ∈ sortDesc key l ↔ a ∈ l :=
  (sortDesc_perm key l).mem_iff

theorem sortDesc_sorted (key : α → Int) (l : List α) :
    List.Pairwise (fun a b => key b ≤ key a) (sortDesc key l) := by
  haveI : IsTotal α (fun a b => key b ≤ key a) :=
    ⟨fun a b => (le_total (key a) (key b)).symm⟩
  haveI : IsTrans α (fun a b => key b ≤ key a) :=
    ⟨fun _ _ _ h1 h2 => le_trans h2 h1⟩
  exact List.sorted_insertionSort _ l

theorem sortDesc_filter_key (key : α → Int) (l : List α) (v : Int) :
    (sortDesc key l).filter (fun a => key a == v) = l.filter (fun a => key a == v) := by
  have hpair : (l.filter (fun a => key a == v)).Pairwise (fun a b => key b ≤ key a) := by
    rw [List.pairwise_iff_forall_sublist]
    intro a b hab
    have ha : a ∈ l.filter (fun a => key a == v) := hab.subset (by simp)
    have hb : b ∈ l.filter (fun a => key a == v) := hab.subset (by simp)
    have ha2 := (List.mem_filter.mp ha).2
    have hb2 := (List.mem_filter.mp hb).2
    simp only [beq_iff_eq] at ha2 hb2
    omega
  have hsub : List.Sublist (l.filter (fun a => key a == v)) (sortDesc key l) :=
    List.sublist_insertionSort hpair (List.filter_sublist l)
  have hsub2 : List.Sublist (l.filter (fun a => key a == v))
      ((sortDesc key l).filter (fun a => key a == v)) := by
    have := hsub.filter (fun a => key a == v)
    rwa [List.filter_filter, (by funext a; simp : (fun a => (key a == v && key a == v)) = (fun a => key a == v))] at this
  have hlen : ((sortDesc key l).filter (fun a => key a == v)).length =
      (l.filter (fun a => key a == v)).length :=
    ((sortDesc_perm key l).filter _).length_eq
  exact (hsub2.eq_of_length hlen.symm).symm

/-! Lemmas about the top-3 sentence selection. -/

theorem argsortDesc_perm (scores : List Int) (n : Nat) :
    List.Perm (argsortDesc scores n) (List.range n) :=
  sortDesc_perm _ _

theorem argsortDesc_length (scores : List Int) (n : Nat) :
    (argsortDesc scores n).length = n := by
  rw [argsortDesc, sortDesc_length, List.length_range]

theorem argsortDesc_mem_lt (scores : List Int) (n : Nat) (i : Nat)
    (h : i ∈ argsortDesc scores n) : i < n := by
  have := (argsortDesc_perm scores n).mem_iff.mp h
  exact List.mem_range.mp this

theorem argsortDesc_sorted (scores : List Int) (n : Nat) :
    List.Pairwise (fun i j => scores.getD j 0 ≤ scores.getD i 0)
      (argsortDesc scores n) :=
  sortDesc_sorted _ _

/-- The deterministic refinement `argsortDesc` satisfies the contract
that line 179 guarantees. -/
theorem argsortDesc_valid (scores : List Int) (n : Nat) :
    validTopOrder scores n (argsortDesc scores n) :=
  ⟨argsortDesc_perm scores n, argsortDesc_sorted scores n⟩

theorem relevant_sentences_eq_from (sentences : List Str) (scores : List Int) :
    relevant_sentences sentences scores =
      relevantSentencesFrom sentences (argsortDesc scores sentences.length) :=
  rfl

theorem validTopOrder_mem_lt {scores : List Int} {n : Nat} {out : List Nat}
    (hout : validTopOrder scores n out) (i : Nat) (h : i ∈ out) : i < n :=
  List.mem_range.mp (hout.1.mem_iff.mp h)

theorem relevantSentencesFrom_of_ne_nil (sentences : List Str)
    (scores : List Int) (out : List Nat)
    (hout : validTopOrder scores sentences.length out) (h : sentences ≠ []) :
    relevantSentencesFrom sentences out =
      (out.take 3).map (fun i => sentences.getD i []) := by
  rw [relevantSentencesFrom, if_neg (by simpa [List.isEmpty_iff] using h)]
  congr 1
  apply List.filter_eq_self.mpr
  intro i hi
  simpa using validTopOrder_mem_lt hout i (List.mem_of_mem_take hi)

theorem relevantSentencesFrom_length (sentences : List Str)
    (scores : List Int) (out : List Nat)
    (hout : validTopOrder scores sentences.length out) (h : sentences ≠ []) :
    (relevantSentencesFrom sentences out).length = min 3 sentences.length := by
  rw [relevantSentencesFrom_of_ne_nil sentences scores out hout h,
    List.length_map, List.length_take, hout.1.length_eq, List.length_range]

theorem relevant_sentences_of_ne_nil (sentences : List Str) (scores : List Int)
    (h : sentences ≠ []) :
    relevant_sentences sentences scores =
      ((argsortDesc scores sentences.length).take 3).map (fun i => sentences.getD i []) := by
  rw [relevant_sentences, if_neg (by simpa [List.isEmpty_iff] using h)]
  congr 1
  apply List.filter_eq_self.mpr
  intro i hi
  have : i ∈ argsortDesc scores sentences.length := List.mem_of_mem_take hi
  simpa using argsortDesc_mem_lt _ _ _ this

theorem relevant_sentences_length (sentences : List Str) (scores : List Int)
    (h : sentences ≠ []) :
    (relevant_sentences sentences scores).length = min 3 sentences.length := by
  rw [relevant_sentences_of_ne_nil sentences scores h, List.length_map,
    List.length_take, argsortDesc_length]

/-! Lemmas about splitting. -/

theorem splitOnP_ne_nil (p : Char → Bool) : ∀ s : Str, splitOnP p s ≠ []
  | [] => by simp [splitOnP]
  | c :: cs => by
    cases hc : p c
    · simp only [splitOnP, hc, Bool.false_eq_true, if_false]
      cases hs : splitOnP p cs <;> simp
    · simp [splitOnP, hc]

theorem mem_splitOnP (p : Char → Bool) :
    ∀ (s : Str) (w : Str), w ∈ splitOnP p s → ∀ c ∈ w, p c = false ∧ c ∈ s
  | [], w, hw, c, hc => by
    simp only [splitOnP, List.mem_singleton] at hw
    subst hw
    cases hc
  | a :: cs, w, hw, c, hc => by
    cases ha : p a
    · simp only [splitOnP, ha, Bool.false_eq_true, if_false] at hw
      cases hs : splitOnP p cs with
      | nil => exact absurd hs (splitOnP_ne_nil p cs)
      | cons w0 ws =>
        rw [hs] at hw
        rcases List.mem_cons.mp hw with rfl | hw2
        · rcases List.mem_cons.mp hc with rfl | hc2
          · exact ⟨ha, List.mem_cons_self _ _⟩
          · have := mem_splitOnP p cs w0 (hs ▸ List.mem_cons_self _ _) c hc2
            exact ⟨this.1, List.mem_cons_of_mem _ this.2⟩
        · have := mem_splitOnP p cs w (hs ▸ List.mem_cons_of_mem _ hw2) c hc
          exact ⟨this.1, List.mem_cons_of_mem _ this.2⟩
    · simp only [splitOnP, ha, if_true] at hw
      rcases List.mem_cons.mp hw with rfl | hw2
      · cases hc
      · have := mem_splitOnP p cs w hw2 c hc
        exact ⟨this.1, List.mem_cons_of_mem _ this.2⟩

theorem splitOnP_no_sep (p : Char → Bool) :
    ∀ s : Str, (∀ c ∈ s, p c = false) → splitOnP p s = [s]
  | [], _ => rfl
  | a :: cs, h => by
    have ha : p a = false := h a (List.mem_cons_self _ _)
    have ih := splitOnP_no_sep p cs (fun c hc => h c (List.mem_cons_of_mem _ hc))
    simp only [splitOnP, ha, Bool.false_eq_true, if_false, ih]

theorem splitOnP_sep (p : Char → Bool) (c : Char) (hc : p c = true) :
    ∀ (xs ys : Str), (∀ a ∈ xs, p a = false) →
      splitOnP p (xs ++ c :: ys) = xs :: splitOnP p ys
  | [], ys, _ => by simp [splitOnP, hc]
  | x :: xs, ys, h => by
    have hx : p x = false := h x (List.mem_cons_self _ _)
    have ih := splitOnP_sep p c hc xs ys (fun a ha => h a (List.mem_cons_of_mem _ ha))
    simp only [List.cons_append, splitOnP, hx, Bool.false_eq_true, if_false]
    rw [List.append_eq, ih]

theorem wordsOf_eq_nil_iff (s : Str) :
    wordsOf s = [] ↔ ∀ c ∈ s, pyIsSpace c = true := by
  induction s with
  | nil => simp [wordsOf, splitOnP]
  | cons a cs ih =>
    cases ha : pyIsSpace a
    · constructor
      · intro h
        exfalso
        rw [wordsOf] at h
        simp only [splitOnP, ha, Bool.false_eq_true, if_false] at h
        cases hs : splitOnP pyIsSpace cs with
        | nil => exact splitOnP_ne_nil pyIsSpace cs hs
        | cons w0 ws =>
          rw [hs] at h
          simp [List.filter] at h
      · intro h
        exact absurd (h a (List.mem_cons_self _ _)) (by simp [ha])
    · rw [wordsOf]
      simp only [splitOnP, ha, if_true, List.filter, List.isEmpty_nil, Bool.not_true]
      rw [← wordsOf]
      rw [ih]
      constructor
      · intro h c hc
        rcases List.mem_cons.mp hc with rfl | hc2
        · exact ha
        · exact h c hc2
      · intro h c hc
        exact h c (List.mem_cons_of_mem _ hc)

theorem mem_wordsOf (s w : Str) (h : w ∈ wordsOf s) :
    w ≠ [] ∧ ∀ c ∈ w, pyIsSpace c = false ∧ c ∈ s := by
  rw [wordsOf] at h
  have h2 := List.mem_filter.mp h
  refine ⟨?_, fun c hc => mem_splitOnP pyIsSpace s w h2.1 c hc⟩
  intro hnil
  subst hnil
  simp at h2

theorem wordsOf_joinSep :
    ∀ l : List Str, (∀ w ∈ l, w ≠ [] ∧ ∀ c ∈ w, pyIsSpace c = false) →
      wordsOf (joinSep [' '] l) = l
  | [], _ => by simp [joinSep, wordsOf, splitOnP]
  | [w], h => by
    have hw := h w (List.mem_cons_self _ _)
    have hie : w.isEmpty = false := by
      cases w with
      | nil => exact absurd rfl hw.1
      | cons a b => rfl
    rw [joinSep, wordsOf, splitOnP_no_sep pyIsSpace w hw.2]
    simp [List.filter, hie]
  | w :: x :: l, h => by
    have hw := h w (List.mem_cons_self _ _)
    have ih := wordsOf_joinSep (x :: l) (fun a ha => h a (List.mem_cons_of_mem _ ha))
    have hsp : pyIsSpace ' ' = true := by decide
    have hie : w.isEmpty = false := by
      cases w with
      | nil => exact absurd rfl hw.1
      | cons a b => rfl
    rw [joinSep, wordsOf]
    have hrw : w ++ [' '] ++ joinSep [' '] (x :: l) = w ++ ' ' :: joinSep [' '] (x :: l) := by
      rw [List.append_assoc]
      rfl
    rw [hrw, splitOnP_sep pyIsSpace ' ' hsp w _ hw.2]
    simp only [List.filter, hie]
    rw [← wordsOf, ih]
    rfl

/-! Lemmas about stripping. -/

theorem dropWhile_head_false (p : Char → Bool) :
    ∀ (l : Str) (c : Char), (l.dropWhile p).head? = some c → p c = false := by
  intro l
  induction l with
  | nil => intro c h; cases h
  | cons a cs ih =>
    intro c h
    cases ha : p a
    · rw [List.dropWhile_cons_of_neg (by simp [ha])] at h
      cases h
      exact ha
    · rw [List.dropWhile_cons_of_pos (by simp [ha])] at h
      exact ih c h

theorem dropWhile_idem (p : Char → Bool) (l : Str) :
    List.dropWhile p (List.dropWhile p l) = List.dropWhile p l := by
  induction l with
  | nil => rfl
  | cons a cs ih =>
    cases ha : p a
    · rw [List.dropWhile_cons_of_neg (by simp [ha]), List.dropWhile_cons_of_neg (by simp [ha])]
    · rw [List.dropWhile_cons_of_pos (by simp [ha]), ih]

theorem dropWhile_eq_self_of_head (p : Char → Bool) (l : Str)
    (h : ∀ c, l.head? = some c → p c = false) : List.dropWhile p l = l := by
  cases l with
  | nil => rfl
  | cons a cs => rw [List.dropWhile_cons_of_neg (by simp [h a rfl])]

theorem dropWhile_forall_iff (p : Char → Bool) (l : Str) :
    (∀ c ∈ List.dropWhile p l, p c = true) ↔ ∀ c ∈ l, p c = true := by
  constructor
  · intro h c hc
    rcases List.mem_append.mp
        ((List.takeWhile_append_dropWhile p l) ▸ hc) with h1 | h2
    · exact List.mem_takeWhile_imp h1
    · exact h c h2
  · intro h c hc
    exact h c ((List.dropWhile_sublist p (l := l)).mem hc)

theorem pyStrip_eq_nil_iff (s : Str) :
    pyStrip s = [] ↔ ∀ c ∈ s, pyIsSpace c = true := by
  rw [pyStrip, List.reverse_eq_nil_iff, List.dropWhile_eq_nil_iff]
  constructor
  · intro h
    exact (dropWhile_forall_iff pyIsSpace s).mp
      (fun c hc => h c (List.mem_reverse.mpr hc))
  · intro h c hc
    exact (dropWhile_forall_iff pyIsSpace s).mpr h c (List.mem_reverse.mp hc)

theorem pyStrip_idem (s : Str) : pyStrip (pyStrip s) = pyStrip s := by
  cases hv : List.dropWhile pyIsSpace (List.dropWhile pyIsSpace s).reverse with
  | nil =>
    have : pyStrip s = [] := by rw [pyStrip, hv, List.reverse_nil]
    rw [this]
    rfl
  | cons w vs =>
    have hvne : List.dropWhile pyIsSpace (List.dropWhile pyIsSpace s).reverse ≠ [] := by
      rw [hv]; exact List.cons_ne_nil w vs
    have hs : pyStrip s = (List.dropWhile pyIsSpace (List.dropWhile pyIsSpace s).reverse).reverse := rfl
    have hheadrev : ∀ c,
        ((List.dropWhile pyIsSpace (List.dropWhile pyIsSpace s).reverse).reverse).head? = some c →
          pyIsSpace c = false := by
      intro c hc
      rw [List.head?_reverse] at hc
      have hsplit := List.takeWhile_append_dropWhile pyIsSpace (List.dropWhile pyIsSpace s).reverse
      have hlast : (List.dropWhile pyIsSpace (List.dropWhile pyIsSpace s).reverse).getLast? =
          ((List.dropWhile pyIsSpace s).reverse).getLast? := by
        conv_rhs => rw [← hsplit]
        rw [List.getLast?_append_of_ne_nil _ hvne]
      rw [hlast, List.getLast?_reverse] at hc
      exact dropWhile_head_false pyIsSpace s c hc
    have hstep1 : List.dropWhile pyIsSpace
        ((List.dropWhile pyIsSpace (List.dropWhile pyIsSpace s).reverse).reverse) =
        (List.dropWhile pyIsSpace (List.dropWhile pyIsSpace s).reverse).reverse :=
      dropWhile_eq_self_of_head pyIsSpace _ hheadrev
    rw [hs, pyStrip, hstep1, List.reverse_reverse, dropWhile_idem]

/-! Lemmas about sentence splitting. -/

theorem mem_sentencesOf (t s : Str) (h : s ∈ sentencesOf t) :
    s ≠ [] ∧ pyStrip s = s := by
  rw [sentencesOf] at h
  have h2 := List.mem_filter.mp h
  obtain ⟨w, hw, rfl⟩ := List.mem_map.mp h2.1
  constructor
  · intro hnil
    rw [hnil] at h2
    simp at h2
  · exact pyStrip_idem w

theorem sentencesOf_no_dot (t : Str) (hd : t.contains '.' = false)
    (hne : pyStrip t ≠ []) : sentencesOf t = [pyStrip t] := by
  have hnd : ∀ c ∈ t, (c == '.') = false := by
    intro c hc
    rcases hbe : c == '.' with _ | _
    · rfl
    · exfalso
      have heq : c = '.' := by exact_mod_cast eq_of_beq hbe
      have : List.contains t '.' = true := by
        rw [List.contains_iff_exists_mem_beq]
        exact ⟨c, hc, by rw [heq]; decide⟩
      rw [this] at hd
      cases hd
  rw [sentencesOf, splitOnP_no_sep _ t hnd]
  have hie : (pyStrip t).isEmpty = false := by
    cases hh : pyStrip t with
    | nil => exact absurd hh hne
    | cons a b => rfl
  simp [List.filter, hie]

theorem sentencesOf_of_strip_nil (t : Str) (h : pyStrip t = []) :
    sentencesOf t = [] := by
  have hall : ∀ c ∈ t, pyIsSpace c = true := (pyStrip_eq_nil_iff t).mp h
  rw [sentencesOf, List.filter_eq_nil_iff]
  intro a ha
  obtain ⟨w, hw, rfl⟩ := List.mem_map.mp ha
  have hwall : ∀ c ∈ w, pyIsSpace c = true := by
    intro c hc
    exact hall c (mem_splitOnP _ t w hw c hc).2
  rw [(pyStrip_eq_nil_iff w).mpr hwall]
  simp

/-! Lemmas about chunking. -/

theorem chunkList_join_aux (k : Nat) :
    ∀ (n : Nat) (ws : List α), ws.length ≤ n → (chunkList (k + 1) ws).flatten = ws := by
  intro n
  induction n with
  | zero =>
    intro ws h
    have hws : ws = [] := List.length_eq_zero.mp (Nat.le_zero.mp h)
    subst hws
    simp [chunkList, chunkListF]
  | succ n ih =>
    intro ws h
    cases ws with
    | nil => simp [chunkList, chunkListF]
    | cons w ws0 =>
      have hd : ((w :: ws0).drop (k + 1)).length ≤ n := by
        rw [List.length_drop]
        simp only [List.length_cons] at h ⊢
        omega
      rw [chunkList_cons, List.flatten_cons, ih _ hd, List.take_append_drop]

theorem chunkList_join (k : Nat) (ws : List α) :
    (chunkList (k + 1) ws).flatten = ws :=
  chunkList_join_aux k ws.length ws (le_refl _)

theorem chunkList_length_aux (k : Nat) :
    ∀ (n : Nat) (ws : List α), ws.length ≤ n →
      (chunkList (k + 1) ws).length = (ws.length + k) / (k + 1) := by
  intro n
  induction n with
  | zero =>
    intro ws h
    have hws : ws = [] := List.length_eq_zero.mp (Nat.le_zero.mp h)
    subst hws
    simp [chunkList, chunkListF, Nat.div_eq_of_lt (Nat.lt_succ_self k)]
  | succ n ih =>
    intro ws h
    cases ws with
    | nil => simp [chunkList, chunkListF, Nat.div_eq_of_lt (Nat.lt_succ_self k)]
    | cons w ws0 =>
      have hd : ((w :: ws0).drop (k + 1)).length ≤ n := by
        rw [List.length_drop]
        simp only [List.length_cons] at h ⊢
        omega
      rw [chunkList_cons, List.length_cons, ih _ hd, List.length_drop]
      simp only [List.length_cons]
      have hrw : ws0.length + 1 + k = (ws0.length + 1 - 1) + (k + 1) := by omega
      rw [hrw, Nat.add_div_right _ (Nat.succ_pos k)]
      rcases Nat.lt_or_ge (ws0.length + 1) (k + 1) with hlt | hge
      · have h1 : ws0.length + 1 - (k + 1) = 0 := by omega
        rw [h1, Nat.zero_add]
        have h2 : ws0.length + 1 - 1 < k + 1 := by omega
        rw [Nat.div_eq_of_lt h2, Nat.div_eq_of_lt (Nat.lt_succ_self k)]
      · have h1 : ws0.length + 1 - (k + 1) + k = ws0.length + 1 - 1 := by omega
        rw [h1]

theorem chunkList_length (k : Nat) (ws : List α) :
    (chunkList (k + 1) ws).length = (ws.length + k) / (k + 1) :=
  chunkList_length_aux k ws.length ws (le_refl _)

theorem chunkList_mem_aux (k : Nat) :
    ∀ (n : Nat) (ws : List α) (c : List α), ws.length ≤ n →
      c ∈ chunkList (k + 1) ws → c.length ≤ k + 1 ∧ ∀ x ∈ c, x ∈ ws := by
  intro n
  induction n with
  | zero =>
    intro ws c h hc
    have hws : ws = [] := List.length_eq_zero.mp (Nat.le_zero.mp h)
    subst hws
    simp [chunkList, chunkListF] at hc
  | succ n ih =>
    intro ws c h hc
    cases ws with
    | nil => simp [chunkList, chunkListF] at hc
    | cons w ws0 =>
      have hd : ((w :: ws0).drop (k + 1)).length ≤ n := by
        rw [List.length_drop]
        simp only [List.length_cons] at h ⊢
        omega
      rw [chunkList_cons] at hc
      rcases List.mem_cons.mp hc with rfl | hc2
      · refine ⟨?_, fun x hx => List.mem_of_mem_take hx⟩
        rw [List.length_take]
        exact min_le_left _ _
      · have := ih _ c hd hc2
        exact ⟨this.1, fun x hx => List.mem_of_mem_drop (this.2 x hx)⟩

theorem chunkList_mem (k : Nat) (ws : List α) (c : List α)
    (hc : c ∈ chunkList (k + 1) ws) : c.length ≤ k + 1 ∧ ∀ x ∈ c, x ∈ ws :=
  chunkList_mem_aux k ws.length ws c (le_refl _) hc

theorem wordsOf_joinSep_chunk (t : Str) (k : Nat) (c : List Str)
    (hc : c ∈ chunkList (k + 1) (wordsOf t)) :
    wordsOf (joinSep [' '] c) = c := by
  apply wordsOf_joinSep
  intro w hw
  have hwt : w ∈ wordsOf t := (chunkList_mem k _ c hc).2 w hw
  have := mem_wordsOf t w hwt
  exact ⟨this.1, fun a ha => (this.2 a ha).1⟩

/-! Claim theorems. -/

/-- C7: for every non-empty text and positive `max_words`, chunking by
words produces exactly `ceil(word_count/max_words)` chunks, each with at
most `max_words` words, and concatenating the chunks in order
reconstructs the text's word sequence exactly. -/
theorem chunking_exact (t : Str) (m : Nat) (hm : 0 < m) (ht : t ≠ []) :
    (chunkByWords t m).length = ((wordsOf t).length + m - 1) / m ∧
    (∀ c ∈ chunkByWords t m, (wordsOf c).length ≤ m) ∧
    ((chunkByWords t m).map wordsOf).flatten = wordsOf t := by
  obtain ⟨k, rfl⟩ : ∃ k, m = k + 1 := ⟨m - 1, by omega⟩
  refine ⟨?_, ?_, ?_⟩
  · rw [chunkByWords, List.length_map, chunkList_length]
    have hk : (wordsOf t).length + (k + 1) - 1 = (wordsOf t).length + k := by omega
    rw [hk]
  · intro c hc
    rw [chunkByWords] at hc
    obtain ⟨c0, hc0, rfl⟩ := List.mem_map.mp hc
    rw [wordsOf_joinSep_chunk t k c0 hc0]
    exact (chunkList_mem k _ c0 hc0).1
  · rw [chunkByWords, List.map_map]
    have hcong : (chunkList (k + 1) (wordsOf t)).map (wordsOf ∘ joinSep [' ']) =
        (chunkList (k + 1) (wordsOf t)).map id := by
      apply List.map_congr_left
      intro c0 hc0
      exact wordsOf_joinSep_chunk t k c0 hc0
    rw [hcong, List.map_id, chunkList_join]

/-- C7 witness: concrete evaluation at text `"a b c"` with chunk size 2. -/
theorem chunking_exact_witness :
    0 < 2 ∧ "a b c".data ≠ [] ∧
      ((chunkByWords "a b c".data 2).length = ((wordsOf "a b c".data).length + 2 - 1) / 2 ∧
        (∀ c ∈ chunkByWords "a b c".data 2, (wordsOf c).length ≤ 2) ∧
        ((chunkByWords "a b c".data 2).map wordsOf).flatten = wordsOf "a b c".data) :=
  ⟨by decide, by decide, chunking_exact ("a b c").data 2 (by decide) (by decide)⟩

/-- C8: sentence splitting yields non-empty, whitespace-trimmed strings;
text with no dot yields the whole trimmed text as a single sentence;
empty or whitespace-only text yields the empty sequence. -/
theorem sentence_splitting (t : Str) :
    (∀ s ∈ sentencesOf t, s ≠ [] ∧ pyStrip s = s) ∧
    (t.contains '.' = false → pyStrip t ≠ [] → sentencesOf t = [pyStrip t]) ∧
    (pyStrip t = [] → sentencesOf t = []) :=
  ⟨fun s hs => mem_sentencesOf t s hs,
   fun h1 h2 => sentencesOf_no_dot t h1 h2,
   fun h => sentencesOf_of_strip_nil t h⟩

/-- C8 witness: concrete evaluation on a dot-free text and a
whitespace-only text. -/
theorem sentence_splitting_witness :
    sentencesOf " hi there ".data = [pyStrip " hi there ".data] ∧
      sentencesOf "   ".data = [] :=
  ⟨(sentence_splitting (" hi there ").data).2.1 (by decide) (by decide),
   (sentence_splitting ("   ").data).2.2 (by decide)⟩

/-- C2 counterexample: the deterministic earlier-position tie-break is
not a property of the program.  Torch's `argsort(descending=True)`
defaults to `stable=False` and for the equal scores `[5, 5]` its
contract admits the index order `[1, 0]`, which selects the sentences in
the opposite of earlier-position order — so the claimed tie rule does
not hold for every selection order line 179 may produce. -/
theorem top_sentence_tie_counterexample :
    validTopOrder [5, 5] 2 [1, 0] ∧
    relevantSentencesFrom ["a".data, "b".data] [1, 0] = ["b".data, "a".data] ∧
    ["b".data, "a".data] ≠ ["a".data, "b".data] :=
  ⟨⟨by decide, by decide⟩, by decide, by decide⟩

/-- C2 amended: for every selection order satisfying the contract that
line 179 guarantees (a permutation of the indices, non-increasing in
score — the order among equal scores is unspecified), the selection
step returns exactly `min 3 n` sentences, every selected sentence
scores at least as high as every unselected one, the selected sentences
appear in non-increasing score order, and with no sentences the fixed
placeholder is substituted. -/
theorem top_sentence_selection (sentences : List Str) (scores : List Int)
    (out : List Nat) (hout : validTopOrder scores sentences.length out) :
    (sentences = [] → relevantSentencesFrom sentences out = [noContentMsg]) ∧
    (sentences ≠ [] →
      (relevantSentencesFrom sentences out).length = min 3 sentences.length ∧
      relevantSentencesFrom sentences out =
        (out.take 3).map (fun i => sentences.getD i []) ∧
      (∀ i ∈ out.take 3, ∀ j ∈ out.drop 3, scores.getD j 0 ≤ scores.getD i 0) ∧
      List.Pairwise (fun i j => scores.getD j 0 ≤ scores.getD i 0)
        (out.take 3)) := by
  constructor
  · intro h
    subst h
    rfl
  · intro h
    have hsplit := (List.take_append_drop 3 out) ▸ hout.2
    rw [List.pairwise_append] at hsplit
    exact ⟨relevantSentencesFrom_length sentences scores out hout h,
      relevantSentencesFrom_of_ne_nil sentences scores out hout h,
      hsplit.2.2, hsplit.1⟩

/-- C2 witness: concrete evaluation with two sentences (a valid
descending selection order for scores `[1, 2]` is `[1, 0]`) and with
none. -/
theorem top_sentence_selection_witness :
    relevantSentencesFrom ([] : List Str) [] = [noContentMsg] ∧
      (relevantSentencesFrom ["a".data, "bb".data] [1, 0]).length = min 3 2 :=
  ⟨(top_sentence_selection [] [] [] ⟨by decide, by decide⟩).1 rfl,
   ((top_sentence_selection ["a".data, "bb".data] [1, 2] [1, 0]
      ⟨by decide, by decide⟩).2 (by decide)).1⟩

/-- C4: an empty/whitespace-only query yields the `Empty query` error and
an empty store yields the `No documents processed` error, in both cases
independently of the similarity oracles (so before any embedding or
scoring work is done, and no result list is produced). -/
theorem search_precondition_errors {V : Type} (query : Str)
    (db : List (Nat × DocRecord V)) :
    (pyStrip query = [] →
      ∀ (docScore : DocRecord V → Int) (sentScore : Str → Int),
        search_documents query db docScore sentScore = .error ("Empty query").data) ∧
    (pyStrip query ≠ [] → db = [] →
      ∀ (docScore : DocRecord V → Int) (sentScore : Str → Int),
        search_documents query db docScore sentScore =
          .error ("No documents processed").data) := by
  constructor
  · intro h ds ss
    rw [search_documents, if_pos (by rw [h]; rfl)]
  · intro h1 h2 ds ss
    subst h2
    have hq : (pyStrip query).isEmpty = false := by
      cases hh : pyStrip query with
      | nil => exact absurd hh h1
      | cons a b => rfl
    rw [search_documents, if_neg (by rw [hq]; exact Bool.false_ne_true)]
    rfl

/-- C4 witness: a whitespace query against a one-document store, and a
non-empty query against the empty store. -/
theorem search_precondition_errors_witness :
    search_documents "   ".data
        ([(0, ⟨"f".data, "x".data, [], ()⟩)] : List (Nat × DocRecord Unit))
        (fun _ => 0) (fun _ => 0) = .error ("Empty query").data ∧
      search_documents "hi".data ([] : List (Nat × DocRecord Unit))
        (fun _ => 0) (fun _ => 0) = .error ("No documents processed").data :=
  ⟨(search_precondition_errors ("   ").data _).1 (by decide) _ _,
   (search_precondition_errors ("hi").data _).2 (by decide) rfl _ _⟩

theorem runSummarizer_error (summ : Str → Except Unit Str) :
    ∀ l : List Str, (∃ c ∈ l, ∃ e, summ c = .error e) →
      ∃ e2, runSummarizer summ l = .error e2 := by
  intro l
  induction l with
  | nil =>
    intro h
    obtain ⟨c, hc, _⟩ := h
    cases hc
  | cons c0 cs ih =>
    intro h
    obtain ⟨c, hc, e, he⟩ := h
    rcases List.mem_cons.mp hc with rfl | hc2
    · refine ⟨e, ?_⟩
      rw [runSummarizer, he]
    · cases hs : summ c0 with
      | error e0 =>
        refine ⟨e0, ?_⟩
        rw [runSummarizer, hs]
      | ok s0 =>
        obtain ⟨e2, he2⟩ := ih ⟨c, hc2, e, he⟩
        refine ⟨e2, ?_⟩
        rw [runSummarizer, hs, he2]

/-- C5: if the summarizer fails on any chunk, `summarize_text` returns
exactly the first 500 characters of the full text, and the success of
the whole ingestion (`process_document`) never depends on the summarizer
at all. -/
theorem summarize_fallback {V : Type} (summ : Str → Except Unit Str) (text : Str)
    (h : ∃ c ∈ chunkByWords text 1024, ∃ e, summ c = .error e) :
    summarize_text summ text = text.take 500 ∧
    ∀ (embed : Str → Option V) (summ2 : Str → Except Unit Str) (fn : Str),
      (process_document embed summ text fn).isSome =
        (process_document embed summ2 text fn).isSome := by
  constructor
  · have hch : chunkByWords text 1024 ≠ [] := by
      obtain ⟨c, hc, _⟩ := h
      intro hnil
      rw [hnil] at hc
      cases hc
    have hw : wordsOf text ≠ [] := by
      intro hnil
      apply hch
      rw [chunkByWords, hnil]
      rfl
    have hst : (pyStrip text).isEmpty = false := by
      cases hh : pyStrip text with
      | nil =>
        exfalso
        exact hw ((wordsOf_eq_nil_iff text).mpr ((pyStrip_eq_nil_iff text).mp hh))
      | cons a b => rfl
    obtain ⟨e2, he2⟩ := runSummarizer_error summ (chunkByWords text 1024) h
    rw [summarize_text, if_neg (by rw [hst]; exact Bool.false_ne_true), he2]
  · intro embed summ2 fn
    rw [process_document, process_document]
    cases hft : text.isEmpty
    · simp only [Bool.false_eq_true, if_false]
      cases embed text <;> rfl
    · simp only [if_true]

/-- C5 witness: a summarizer that always fails, on the text `"hello"`
(shorter than 500 characters, so the fallback is the whole text). -/
theorem summarize_fallback_witness :
    summarize_text (fun _ => .error ()) "hello".data = ("hello").data.take 500 :=
  (summarize_fallback (V := Unit) (fun _ => .error ()) ("hello").data
    ⟨("hello").data, by decide, (), rfl⟩).1

/-- Ascending sort of selected indices (used only by the spec-side
definition below). -/
def sortIdxAsc (l : List Nat) : List Nat :=
  List.insertionSort (fun a b => a ≤ b) l

/-- Modelled from the spec, for comparison with the code: spec §4.3
step 4 says "Join selected sentences (in their original document order,
not score order) with a single space", so the selected indices are
re-sorted into ascending position order before joining. -/
def specDocOrderContent (sentences : List Str) (scores : List Int) : Str :=
  if sentences.isEmpty then
    joinSep [' '] [noContentMsg]
  else
    joinSep [' ']
      ((sortIdxAsc (((argsortDesc scores sentences.length).take 3).filter
          (fun i => i < sentences.length))).map (fun i => sentences.getD i []))

theorem search_documents_ok {V : Type} {query : Str}
    {db : List (Nat × DocRecord V)} {ds : DocRecord V → Int} {ss : Str → Int}
    {rs : List SearchResult}
    (h : search_documents query db ds ss = .ok rs) :
    rs = (sortDesc (fun r => r.score) (resultsOf ds ss db)).take 10 := by
  rw [search_documents] at h
  split at h
  · exact Except.noConfusion h
  · split at h
    · exact Except.noConfusion h
    · injection h with h2
      exact h2.symm

/-- C1 counterexample: for the stored text `"a. bb."` with sentence
scores increasing in sentence length, the code's `content` field is
`"bb a"` (score order), while joining the same selected sentences in
original document order gives `"a bb"` — so the claim as stated is false
of the code. -/
theorem content_doc_order_counterexample :
    search_documents "q".data
        ([(0, ⟨"f".data, "a. bb.".data, [], ()⟩)] : List (Nat × DocRecord Unit))
        (fun _ => 0) (fun s => (s.length : Int)) =
      .ok [⟨"f".data, "bb a".data, 0⟩] ∧
    specDocOrderContent (sentencesOf "a. bb.".data)
        ((sentencesOf "a. bb.".data).map (fun s => (s.length : Int))) = "a bb".data ∧
    "bb a".data ≠ "a bb".data :=
  ⟨rfl, rfl, by decide⟩

/-- C1 amended: every returned `content` field is the single-space join
of the selected sentences in the order the top-3 selection produced
them — a non-increasing score order — rather than in original document
order.  The non-increasing order is stated both for the embedding's
selection and, via `validTopOrder`, for every selection order the
line-179 argsort contract admits. -/
theorem content_join_selection_order {V : Type} (query : Str)
    (db : List (Nat × DocRecord V)) (docScore : DocRecord V → Int)
    (sentScore : Str → Int) (rs : List SearchResult)
    (h : search_documents query db docScore sentScore = .ok rs) :
    (∀ r ∈ rs, ∃ p ∈ db,
      r.content = joinSep [' ']
        (relevant_sentences (sentencesOf p.2.full_text)
          ((sentencesOf p.2.full_text).map sentScore)) ∧
      (sentencesOf p.2.full_text ≠ [] →
        relevant_sentences (sentencesOf p.2.full_text)
            ((sentencesOf p.2.full_text).map sentScore) =
          ((argsortDesc ((sentencesOf p.2.full_text).map sentScore)
              (sentencesOf p.2.full_text).length).take 3).map
            (fun i => (sentencesOf p.2.full_text).getD i []) ∧
        List.Pairwise
          (fun i j =>
            ((sentencesOf p.2.full_text).map sentScore).getD j 0 ≤
              ((sentencesOf p.2.full_text).map sentScore).getD i 0)
          ((argsortDesc ((sentencesOf p.2.full_text).map sentScore)
              (sentencesOf p.2.full_text).length).take 3))) ∧
    (∀ (sentences : List Str) (scores : List Int) (out : List Nat),
      validTopOrder scores sentences.length out → sentences ≠ [] →
        List.Pairwise (fun i j => scores.getD j 0 ≤ scores.getD i 0)
          (out.take 3)) := by
  constructor
  · intro r hr
    rw [search_documents_ok h] at hr
    have hr2 : r ∈ sortDesc (fun r => r.score) (resultsOf docScore sentScore db) :=
      List.mem_of_mem_take hr
    have hr3 : r ∈ resultsOf docScore sentScore db :=
      (mem_sortDesc _ _ r).mp hr2
    rw [resultsOf] at hr3
    obtain ⟨p, hp, rfl⟩ := List.mem_map.mp hr3
    refine ⟨p, hp, rfl, ?_⟩
    intro hne
    exact ⟨relevant_sentences_of_ne_nil _ _ hne,
      (argsortDesc_sorted _ _).sublist (List.take_sublist _ _)⟩
  · intro sentences scores out hout _
    exact hout.2.sublist (List.take_sublist _ _)

/-- C1 amended witness: the counterexample store, where the selection
order join is observable as `"bb a"`. -/
theorem content_join_selection_order_witness :
    ("bb a").data = joinSep [' ']
      (relevant_sentences (sentencesOf ("a. bb.").data)
        ((sentencesOf ("a. bb.").data).map (fun s => (s.length : Int)))) := by
  have h := (content_join_selection_order "q".data
    ([(0, ⟨"f".data, "a. bb.".data, [], ()⟩)] : List (Nat × DocRecord Unit))
    (fun _ => 0) (fun s => (s.length : Int))
    [⟨"f".data, "bb a".data, 0⟩] rfl).1
    (⟨"f".data, "bb a".data, 0⟩ : SearchResult) (List.mem_singleton.mpr rfl)
  obtain ⟨p, hp, h1, _⟩ := h
  have hp2 : p = (0, (⟨"f".data, "a. bb.".data, [], ()⟩ : DocRecord Unit)) :=
    List.mem_singleton.mp hp
  rw [hp2] at h1
  exact h1

/-- C3: the result list is the stable descending sort (by score, ties in
document insertion order) of the per-document entries, truncated to 10:
it has at most 10 entries, is sorted by score descending, and equal
scores keep their original insertion order. -/
theorem results_ranked {V : Type} (query : Str) (db : List (Nat × DocRecord V))
    (docScore : DocRecord V → Int) (sentScore : Str → Int) (rs : List SearchResult)
    (h : search_documents query db docScore sentScore = .ok rs) :
    rs.length ≤ 10 ∧
    rs = (sortDesc (fun r => r.score) (resultsOf docScore sentScore db)).take 10 ∧
    List.Pairwise (fun a b => b.score ≤ a.score) rs ∧
    List.Perm (sortDesc (fun r => r.score) (resultsOf docScore sentScore db))
      (resultsOf docScore sentScore db) ∧
    ∀ v : Int,
      (sortDesc (fun r => r.score) (resultsOf docScore sentScore db)).filter
          (fun r => r.score == v) =
        (resultsOf docScore sentScore db).filter (fun r => r.score == v) := by
  have hrs := search_documents_ok h
  refine ⟨?_, hrs, ?_, sortDesc_perm _ _, fun v => sortDesc_filter_key _ _ v⟩
  · rw [hrs, List.length_take]
    exact min_le_left _ _
  · rw [hrs]
    exact (sortDesc_sorted _ _).sublist (List.take_sublist _ _)

/-- C3 witness: a two-document store with distinct scores. -/
theorem results_ranked_witness :
    ([(⟨"g".data, noContentMsg, 5⟩ : SearchResult), ⟨"f".data, noContentMsg, 1⟩] :
        List SearchResult).length ≤ 10 :=
  (results_ranked "q".data
    ([(0, ⟨"f".data, " ".data, [], ()⟩), (1, ⟨"g".data, " ".data, [], ()⟩)] :
      List (Nat × DocRecord Unit))
    (fun d => if d.filename = "f".data then 1 else 5) (fun _ => 0)
    [⟨"g".data, noContentMsg, 5⟩, ⟨"f".data, noContentMsg, 1⟩] rfl).1

theorem process_document_some {V : Type} {embed : Str → Option V}
    {summ : Str → Except Unit Str} {full_text fn : Str} {d : DocRecord V}
    (h : process_document embed summ full_text fn = some d) :
    d.full_text = full_text ∧ full_text ≠ [] := by
  rw [process_document] at h
  cases hft : full_text.isEmpty
  · simp only [hft, Bool.false_eq_true, if_false] at h
    cases hemb : embed full_text
    · rw [hemb] at h
      exact Option.noConfusion h
    · rw [hemb] at h
      injection h with h2
      subst h2
      refine ⟨rfl, ?_⟩
      intro hnil
      subst hnil
      exact Bool.noConfusion hft
  · rw [hft] at h
    simp only [if_true] at h
    exact Option.noConfusion h

theorem upload_files_db_mono {φ V : Type} (fname extract : φ → Str)
    (embed : Str → Option V) (summ : Str → Except Unit Str) :
    ∀ (fs : List φ) (db : List (Nat × DocRecord V)) (next : Nat)
      (p : Nat × DocRecord V), p ∈ db →
      p ∈ (upload_files fname extract embed summ fs db next).1 := by
  intro fs
  induction fs with
  | nil => intro db next p hp; exact hp
  | cons f fs ih =>
    intro db next p hp
    rw [upload_files]
    split
    · exact ih db next p hp
    · split
      · cases hpd : process_document embed summ (extract f) (fname f) with
        | some d =>
          simp only [hpd]
          exact ih _ _ p (List.mem_append_left _ hp)
        | none =>
          simp only [hpd]
          exact ih _ _ p hp
      · exact ih db next p hp

theorem upload_preserves_nonempty {φ V : Type} (fname extract : φ → Str)
    (embed : Str → Option V) (summ : Str → Except Unit Str) :
    ∀ (fs : List φ) (db : List (Nat × DocRecord V)) (next : Nat),
      (∀ p ∈ db, p.2.full_text ≠ []) →
      ∀ p ∈ (upload_files fname extract embed summ fs db next).1,
        p.2.full_text ≠ [] := by
  intro fs
  induction fs with
  | nil => intro db next hdb p hp; exact hdb p hp
  | cons f fs ih =>
    intro db next hdb p hp
    rw [upload_files] at hp
    split at hp
    · exact ih db next hdb p hp
    · split at hp
      · cases hpd : process_document embed summ (extract f) (fname f) with
        | some d =>
          simp only [hpd] at hp
          refine ih _ _ ?_ p hp
          intro q hq
          rcases List.mem_append.mp hq with hq1 | hq2
          · exact hdb q hq1
          · have : q = (next, d) := List.mem_singleton.mp hq2
            subst this
            have := process_document_some hpd
            rw [this.1]
            exact this.2
        | none =>
          simp only [hpd] at hp
          exact ih _ _ hdb p hp
      · exact ih db next hdb p hp

/-- C6: every record in the store after any ingestion has non-empty
`full_text` (given the invariant held before), and a document whose
extracted text is empty is never turned into a record at all. -/
theorem store_nonempty_invariant {φ V : Type} (fname extract : φ → Str)
    (embed : Str → Option V) (summ : Str → Except Unit Str)
    (fs : List φ) (db : List (Nat × DocRecord V)) (next : Nat)
    (hdb : ∀ p ∈ db, p.2.full_text ≠ []) :
    (∀ p ∈ (upload_files fname extract embed summ fs db next).1,
      p.2.full_text ≠ []) ∧
    (∀ fn : Str, process_document embed summ [] fn = (none : Option (DocRecord V))) :=
  ⟨upload_preserves_nonempty fname extract embed summ fs db next hdb,
   fun _ => rfl⟩

/-- C6 witness: an upload of one file into the empty store; the stored
record has non-empty text. -/
theorem store_nonempty_invariant_witness :
    ((0 : Nat), (⟨"doc.pdf".data, "hi".data, "hi".data, ()⟩ : DocRecord Unit)).2.full_text ≠ [] :=
  (store_nonempty_invariant (fun f => f) (fun _ => ("hi").data) (fun _ => some ())
    (fun s => Except.ok s) [("doc.pdf").data] [] 0
    (fun p hp => absurd hp (List.not_mem_nil p))).1
    (0, ⟨("doc.pdf").data, ("hi").data, ("hi").data, ()⟩) (by decide)

theorem upload_results_statuses {φ V : Type} (fname extract : φ → Str)
    (embed : Str → Option V) (summ : Str → Except Unit Str) :
    ∀ (fs : List φ) (db : List (Nat × DocRecord V)) (next : Nat),
      (upload_files fname extract embed summ fs db next).2.1.map
          (fun r => (r.filename, r.status)) =
        (fs.filter (fun f => !(fname f).isEmpty && allowed_file (fname f))).map
          (fun f => (fname f,
            if (process_document embed summ (extract f) (fname f)).isSome
            then ("processed").data else ("error").data)) := by
  intro fs
  induction fs with
  | nil => intro db next; rfl
  | cons f fs ih =>
    intro db next
    rw [upload_files, List.filter_cons]
    cases hfe : (fname f).isEmpty
    · simp only [hfe, Bool.false_eq_true, if_false, Bool.not_false, Bool.true_and]
      cases hal : allowed_file (fname f)
      · simp only [Bool.false_eq_true, if_false]
        exact ih db next
      · simp only [if_true]
        cases hpd : process_document embed summ (extract f) (fname f) with
        | some d =>
          simp only [hpd, List.map_cons, Option.isSome_some, if_true]
          rw [ih]
        | none =>
          simp only [hpd, List.map_cons, Option.isSome_none, Bool.false_eq_true, if_false]
          rw [ih]
    · simp only [hfe, if_true, Bool.not_true, Bool.false_and, Bool.false_eq_true, if_false]
      exact ih db next

/-- C9: in a multi-file upload the outcome of each accepted file is an
independent entry — the response statuses are exactly the per-file
success/failure of `process_document`, so one bad file never aborts the
rest — and every successfully processed document of the batch is stored
in the document store afterwards. -/
theorem per_file_outcomes {φ V : Type} (fname extract : φ → Str)
    (embed : Str → Option V) (summ : Str → Except Unit Str)
    (fs : List φ) (db : List (Nat × DocRecord V)) (next : Nat) :
    ((upload_files fname extract embed summ fs db next).2.1.map
        (fun r => (r.filename, r.status)) =
      (fs.filter (fun f => !(fname f).isEmpty && allowed_file (fname f))).map
        (fun f => (fname f,
          if (process_document embed summ (extract f) (fname f)).isSome
          then ("processed").data else ("error").data))) ∧
    (∀ f ∈ fs, (!(fname f).isEmpty && allowed_file (fname f)) = true →
      ∀ d : DocRecord V, process_document embed summ (extract f) (fname f) = some d →
        ∃ id : Nat, (id, d) ∈ (upload_files fname extract embed summ fs db next).1) := by
  refine ⟨upload_results_statuses fname extract embed summ fs db next, ?_⟩
  induction fs generalizing db next with
  | nil =>
    intro f hf
    cases hf
  | cons f0 fs ih =>
    intro f hf hkept d hd
    rw [upload_files]
    rcases List.mem_cons.mp hf with rfl | hf2
    · have h1 : (fname f).isEmpty = false := by
        cases hh : (fname f).isEmpty
        · rfl
        · rw [hh] at hkept
          exact Bool.noConfusion hkept
      have h2 : allowed_file (fname f) = true := by
        cases hh : allowed_file (fname f)
        · rw [hh, Bool.and_false] at hkept
          exact Bool.noConfusion hkept
        · rfl
      simp only [h1, Bool.false_eq_true, if_false, h2, if_true, hd]
      refine ⟨next, ?_⟩
      exact upload_files_db_mono fname extract embed summ fs _ _ (next, d)
        (List.mem_append_right _ (List.mem_singleton.mpr rfl))
    · split
      · exact ih db next f hf2 hkept d hd
      · split
        · cases hpd : process_document embed summ (extract f0) (fname f0) with
          | some d0 =>
            simp only [hpd]
            exact ih _ _ f hf2 hkept d hd
          | none =>
            simp only [hpd]
            exact ih _ _ f hf2 hkept d hd
        · exact ih db next f hf2 hkept d hd

/-- C9 witness: a batch of one corrupt file (extraction yields empty
text) and one valid file; two independent entries, and the valid
document is stored. -/
theorem per_file_outcomes_witness :
    ∃ id : Nat,
      (id, (⟨"good.pdf".data, "hi".data, "hi".data, ()⟩ : DocRecord Unit)) ∈
        (upload_files (fun f => f)
          (fun f => if f = "bad.pdf".data then [] else "hi".data)
          (fun _ => some ()) (fun s => .ok s)
          ["bad.pdf".data, "good.pdf".data]
          ([] : List (Nat × DocRecord Unit)) 0).1 :=
  (per_file_outcomes (fun f => f)
    (fun f => if f = ("bad.pdf").data then [] else ("hi").data)
    (fun _ => some ()) (fun s => Except.ok s)
    [("bad.pdf").data, ("good.pdf").data] [] 0).2
    ("good.pdf").data (by decide) (by decide)
    ⟨("good.pdf").data, ("hi").data, ("hi").data, ()⟩ (by decide)

/-- C10: extracted text consisting only of whitespace (here a lone
newline) passes the ingestion emptiness check and is stored as a record;
its summary is the empty string, its sentence list is empty, and search
returns the placeholder content for it. -/
theorem whitespace_text_stored :
    process_document (fun _ => some ()) (fun s => .ok s) "\n".data "f".data =
      some ⟨"f".data, "\n".data, [], ()⟩ ∧
    ("\n").data ≠ [] ∧
    summarize_text (fun s => .ok s) "\n".data = [] ∧
    sentencesOf "\n".data = [] ∧
    search_documents "q".data
        [(0, (⟨"f".data, "\n".data, [], ()⟩ : DocRecord Unit))]
        (fun _ => 0) (fun _ => 0) =
      .ok [⟨"f".data, noContentMsg, 0⟩] :=
  ⟨rfl, by decide, rfl, by decide, rfl⟩
